import Mathlib

/-!
# Verification of `audio_deduplication.py`

A shallow embedding of the audio-file deduplication script: the
fingerprinting pipeline (`get_file_size`, `get_file_hash`,
`process_files`), the duplicate resolver of `main`, and the relocation
engine (`move_file`, `move_files_in_parallel`), together with theorems
settling the specification's claims about them.

Modelling conventions:
* A file's bytes are a `List Nat`; the streaming digest is idealised as
  the list of bytes fed to it (an injective digest), so two digests are
  equal exactly when the hashed prefixes are equal byte-for-byte.  The
  Python `hexdigest()` string is never empty, so `if file_hash:` is
  modelled as an `Option` match.
* The module-level configuration constants (`BLOCK_SIZE`,
  `MAX_HASH_BYTES`, `DRY_RUN`, `RETRIES`, `RETRY_DELAY`) are gathered in
  a `Config` record passed explicitly.
* Python `dict` with `setdefault(k, []).append(v)` is an association
  list `List (κ × List α)` with insertion-ordered keys (`addToMap`).
* The `ThreadPoolExecutor`/`as_completed` drain of hash results is
  modelled by an explicit completion order: a list that is a permutation
  of the submitted `files_to_hash` list.
-/

set_option autoImplicit false

namespace AudioDedup

/-- The user-configuration block of the script (the constants that the
fingerprinting and relocation code reads). -/
structure Config where
  blockSize : Nat
  maxHashBytes : Nat
  dryRun : Bool
  retries : Nat
  retryDelay : Nat

/-- The configuration values as set in the script's USER CONFIGURATION
block. -/
def defaultConfig : Config :=
  { blockSize := 65536
    maxHashBytes := 10 * 1024 * 1024
    dryRun := false
    retries := 3
    retryDelay := 1 }

/-- What the filesystem knows about one file during the probing stage:
its byte content, whether `os.path.getsize` succeeds (`sizeOk`), and
whether opening and reading it for hashing succeeds (`hashOk`). -/
structure FileData where
  content : List Nat
  sizeOk : Bool
  hashOk : Bool

/-- A probing environment: metadata for every path. -/
def Meta : Type := String → FileData

/-- An idealised digest: the exact sequence of bytes fed to the
streaming hasher. -/
abbrev Digest := List Nat

/-- `get_file_size`: `os.path.getsize` with error handling; `none`
models the logged-and-swallowed exception path returning `None`. -/
def get_file_size (meta : Meta) (f : String) : Option Nat :=
  if (meta f).sizeOk then some (meta f).content.length else none

/-- One `f.read(min(BLOCK_SIZE, MAX_HASH_BYTES - bytes_read))` call:
the chunk returned when `remaining` bytes are left in the file. -/
def chunkOf (cfg : Config) (remaining : List Nat) (bytesRead : Nat) : List Nat :=
  remaining.take (min cfg.blockSize (cfg.maxHashBytes - bytesRead))

/-- The read loop of `get_file_hash`: repeatedly read
`min(BLOCK_SIZE, MAX_HASH_BYTES - bytes_read)` bytes, stop at end of
file or once `MAX_HASH_BYTES` bytes were read; the returned list is the
byte sequence the hasher consumed. -/
def hashLoop (cfg : Config) (remaining : List Nat) (bytesRead : Nat) (acc : List Nat) :
    List Nat :=
  if bytesRead < cfg.maxHashBytes then
    if h : chunkOf cfg remaining bytesRead = [] then acc
    else
      hashLoop cfg (remaining.drop (chunkOf cfg remaining bytesRead).length)
        (bytesRead + (chunkOf cfg remaining bytesRead).length)
        (acc ++ chunkOf cfg remaining bytesRead)
  else acc
termination_by remaining.length
decreasing_by
  have hpos : 0 < (chunkOf cfg remaining bytesRead).length := List.length_pos.mpr h
  have hle : (chunkOf cfg remaining bytesRead).length =
      min (min cfg.blockSize (cfg.maxHashBytes - bytesRead)) remaining.length :=
    List.length_take _ _
  have hr : 0 < remaining.length := by omega
  calc (remaining.drop (chunkOf cfg remaining bytesRead).length).length
      = remaining.length - (chunkOf cfg remaining bytesRead).length := List.length_drop _ _
    _ < remaining.length := Nat.sub_lt hr hpos

/-- `get_file_hash`: hash the first `MAX_HASH_BYTES` bytes of the file;
`none` models the logged exception path returning `None`. -/
def get_file_hash (cfg : Config) (meta : Meta) (f : String) : Option Digest :=
  if (meta f).hashOk then some (hashLoop cfg (meta f).content 0 []) else none

/-- `m.setdefault(k, []).append(v)` on an insertion-ordered dict. -/
def addToMap {κ α : Type} [DecidableEq κ] :
    List (κ × List α) → κ → α → List (κ × List α)
  | [], k, v => [(k, [v])]
  | (k', vs) :: rest, k, v =>
      if k = k' then (k', vs ++ [v]) :: rest else (k', vs) :: addToMap rest k v

/-- One iteration of the map-building loops of `process_files`: probe
the file with `val`; on `None` the file is skipped (the error was
logged), otherwise append it to its group. -/
def mapStep {κ α : Type} [DecidableEq κ] (val : α → Option κ)
    (m : List (κ × List α)) (f : α) : List (κ × List α) :=
  match val f with
  | none => m
  | some k => addToMap m k f

/-- The common shape of `size_map` and `hash_map`: fold `mapStep` over
the files in the order they are drained. -/
def buildMap {κ α : Type} [DecidableEq κ] (val : α → Option κ) (files : List α) :
    List (κ × List α) :=
  files.foldl (mapStep val) []

/-- All values stored across all groups of a map, in group order. -/
def mapVals {κ α : Type} (m : List (κ × List α)) : List α := (m.map Prod.snd).flatten

/-- Step 1 of `process_files`: the `size_map` dict, skipping files whose
size probe failed. -/
def size_map (meta : Meta) (files : List String) : List (Nat × List String) :=
  buildMap (get_file_size meta) files

/-- Step 2's candidate list: `files_to_hash`, the members of every size
group with two or more files, in size-map order. -/
def files_to_hash (meta : Meta) (files : List String) : List String :=
  (((size_map meta files).filter (fun p => 1 < p.2.length)).map Prod.snd).flatten

/-- The `hash_map` built by draining `as_completed`: `order` is the
completion order of the hashing futures (a permutation of the submitted
`files_to_hash` list); a file whose hash is `None` is skipped. -/
def hash_map (cfg : Config) (meta : Meta) (order : List String) :
    List (Digest × List String) :=
  buildMap (get_file_hash cfg meta) order

/-- `process_files` with a sequential executor (futures complete in
submission order): returns `(size_map, hash_map)`. -/
def process_files (cfg : Config) (meta : Meta) (files : List String) :
    List (Nat × List String) × List (Digest × List String) :=
  (size_map meta files, hash_map cfg meta (files_to_hash meta files))

/-- `reference_set = set(reference_hashes.keys())` membership test. -/
def hasKey (m : List (Digest × List String)) (h : Digest) : Bool :=
  m.any (fun p => p.1 == h)

/-- The duplicate-identification loop of `main`: for each
`(file_hash, paths)` of the source `hash_map`, select all `paths` when
the hash occurs in the reference set, else `paths[1:]` when the group
has two or more paths. -/
def duplicatesList (refHM srcHM : List (Digest × List String)) : List String :=
  srcHM.foldl
    (fun acc p =>
      if hasKey refHM p.1 then acc ++ p.2
      else if 1 < p.2.length then acc ++ p.2.tail
      else acc)
    []

/-- The paths that one `(file_hash, paths)` entry of the source
`hash_map` contributes to the `duplicates` list. -/
def dupContrib (refHM : List (Digest × List String)) (p : Digest × List String) :
    List String :=
  if hasKey refHM p.1 then p.2 else if 1 < p.2.length then p.2.tail else []

/-- The files whose `logger.error` size report fires: size probe
returned `None`. -/
def size_errors (meta : Meta) (files : List String) : List String :=
  files.filter (fun f => (get_file_size meta f).isNone)

/-- The files whose `logger.error` hashing report fires: hash returned
`None`. -/
def hash_errors (cfg : Config) (meta : Meta) (order : List String) : List String :=
  order.filter (fun f => (get_file_hash cfg meta f).isNone)

/-! ## Relocation engine model -/

/-- A file selected for relocation: its full source path and the
`Path.stem` / `Path.suffix` split of its base name. -/
structure Src where
  id : String
  stem : String
  ext : String
deriving DecidableEq

/-- The names tried by the collision loop of `move_file`: candidate `0`
is the source's base name `stem + suffix`, candidate `k ≥ 1` is the
f-string `stem + "_" + str(k) + suffix`. -/
def candidateName (s : Src) : Nat → String
  | 0 => s.stem ++ s.ext
  | Nat.succ k => s.stem ++ "_" ++ Nat.repr (k + 1) ++ s.ext

/-- Filesystem state seen by the relocation engine: names present in
the output folder, source paths still present, and whether the output
folder has been created. -/
structure FS where
  destNames : List String
  sources : List String
  destDirExists : Bool
deriving DecidableEq

/-- The `while dest_path.exists()` loop: try candidate `k`, then
`k + 1`, and so on.  The Python loop is unbounded; `fuel` bounds the
model's search, and every theorem about the search is about a
successful (`some`) result. -/
def findFreeName (names : List String) (s : Src) : Nat → Nat → Option Nat
  | _, 0 => none
  | k, Nat.succ fuel =>
      if candidateName s k ∈ names then findFreeName names s (k + 1) fuel
      else some k

/-- Result of one `source_path.rename(dest_path)` call. -/
inductive RenameRes where
  | ok
  | osErr
  | exn (e : String)
deriving DecidableEq

/-- How a file was moved. -/
inductive MoveKind where
  | renamed
  | fallbackMoved
deriving DecidableEq

/-- Per-path result of `move_file`. -/
inductive Outcome where
  | dryRunMove (dest : String)
  | moved (dest : String) (kind : MoveKind)
  | failed (e : String)
deriving DecidableEq

/-- The retry loop (`while attempt <= RETRIES`) of `move_file`.
`oracle n` is the outcome of the rename call made when `attempt = n`;
`fallback` is the outcome of the `shutil.move` cross-filesystem
fallback run on an `OSError` (its exception propagates out of the
loop).  A non-`OSError` exception increments `attempt`, re-raises once
`attempt > RETRIES`, and otherwise sleeps
`RETRY_DELAY * (2 ** attempt)`.  Returns the loop's result and the
backoff delays slept, in order.  The loop is entered with `attempt = 0`
and `fuel = RETRIES + 1`, which keeps `fuel = RETRIES + 1 - attempt`;
the `fuel = 0` arm is unreachable from that entry. -/
def attemptLoop (cfg : Config) (oracle : Nat → RenameRes) (fallback : Except String Unit) :
    Nat → Nat → Except String MoveKind × List Nat
  | _, 0 => (Except.error "loop exhausted", [])
  | attempt, Nat.succ fuel =>
      match oracle attempt with
      | RenameRes.ok => (Except.ok MoveKind.renamed, [])
      | RenameRes.osErr =>
          match fallback with
          | Except.ok _ => (Except.ok MoveKind.fallbackMoved, [])
          | Except.error e => (Except.error e, [])
      | RenameRes.exn e =>
          if attempt + 1 > cfg.retries then (Except.error e, [])
          else
            let r := attemptLoop cfg oracle fallback (attempt + 1) fuel
            (r.1, cfg.retryDelay * 2 ^ (attempt + 1) :: r.2)

/-- The body of `move_file`'s outer `try`: run the collision loop,
stop before any mutation in dry-run mode, ensure the output directory
exists, then run the rename/fallback/retry loop.  An `Except.error`
result is an exception reaching the outer handler. -/
def moveFileBody (cfg : Config) (oracle : Nat → RenameRes) (fallback : Except String Unit)
    (s : Src) (fuel : Nat) (fs : FS) : FS × Except String Outcome × List Nat :=
  match findFreeName fs.destNames s 0 fuel with
  | none => (fs, Except.error "collision loop did not terminate", [])
  | some k =>
      if cfg.dryRun then (fs, Except.ok (Outcome.dryRunMove (candidateName s k)), [])
      else
        let fs1 : FS := { fs with destDirExists := true }
        match attemptLoop cfg oracle fallback 0 (cfg.retries + 1) with
        | (Except.ok kind, ds) =>
            ({ fs1 with
                destNames := candidateName s k :: fs1.destNames,
                sources := fs1.sources.filter (fun p => p ≠ s.id) },
             Except.ok (Outcome.moved (candidateName s k) kind), ds)
        | (Except.error e, ds) => (fs1, Except.error e, ds)

/-- `move_file`: the outer `try/except Exception` catches every
exception raised by the body, logs it, and returns normally. -/
def move_file (cfg : Config) (oracle : Nat → RenameRes) (fallback : Except String Unit)
    (s : Src) (fuel : Nat) (fs : FS) : FS × Outcome × List Nat :=
  match moveFileBody cfg oracle fallback s fuel fs with
  | (fs', Except.ok o, _ds) => (fs', o, _ds)
  | (fs', Except.error e, _ds) => (fs', Outcome.failed e, _ds)

/-- `move_files_in_parallel` with its filesystem effects serialized in
submission order: fold `move_file` over the duplicate list, collecting
the per-path outcomes. -/
def move_files (cfg : Config) (oracle : Src → Nat → RenameRes)
    (fallback : Src → Except String Unit) (files : List Src) (fuel : Nat) (fs : FS) :
    FS × List Outcome :=
  files.foldl
    (fun st s =>
      let r := move_file cfg (oracle s) (fallback s) s fuel st.1
      (r.1, st.2 ++ [r.2.1]))
    (fs, [])

/-- The output-directory preparation of `main`:
`OUTPUT_FOLDER.mkdir(parents=True, exist_ok=True)` runs
unconditionally, before `main` even reports dry-run mode — a dry run
therefore still creates the output directory (and missing parents)
when absent. -/
def prepare_output (fs : FS) : FS := { fs with destDirExists := true }

/-- The relocation phase of `main`: the unconditional output-folder
`mkdir`, then `move_files_in_parallel` over the duplicate list. -/
def main_move_phase (cfg : Config) (oracle : Src → Nat → RenameRes)
    (fallback : Src → Except String Unit) (files : List Src) (fuel : Nat) (fs : FS) :
    FS × List Outcome :=
  move_files cfg oracle fallback files fuel (prepare_output fs)

/-- An execution in which every rename succeeds at once. -/
def okOracle : Src → Nat → RenameRes := fun _ _ => RenameRes.ok

/-- A `shutil.move` fallback that always succeeds. -/
def okFallback : Src → Except String Unit := fun _ => Except.ok ()

/-! ## Concrete fixtures used by the closed theorems -/

/-- A small configuration (prefix bound 4 bytes, block 2 bytes) so that
closed statements evaluate; the pipeline code is parametric in these. -/
def cfgSmall : Config :=
  { blockSize := 2, maxHashBytes := 4, dryRun := false, retries := 3, retryDelay := 1 }

/-- The spec's end-to-end scenario: reference `song.mp3` and source
`song_copy.mp3` are byte-identical, source `unique.flac` is unrelated
and of a different size. -/
def metaC1 : Meta := fun f =>
  if f = "ref/song.mp3" then { content := [1, 2, 3, 4, 5], sizeOk := true, hashOk := true }
  else if f = "src/song_copy.mp3" then
    { content := [1, 2, 3, 4, 5], sizeOk := true, hashOk := true }
  else { content := [9, 9, 9], sizeOk := true, hashOk := true }

/-- A 2-byte prefix bound for the mixed-size grouping counterexample. -/
def cfgC2 : Config :=
  { blockSize := 1, maxHashBytes := 2, dryRun := false, retries := 3, retryDelay := 1 }

/-- Two duplicate pairs of different sizes (3 and 4 bytes) sharing the
same 2-byte prefix. -/
def metaC2 : Meta := fun f =>
  if f = "a1" ∨ f = "a2" then { content := [0, 0, 7], sizeOk := true, hashOk := true }
  else { content := [0, 0, 8, 9], sizeOk := true, hashOk := true }

/-- Every file has the same 2-byte content (an intra-source duplicate
pair). -/
def metaC3 : Meta := fun _ => { content := [5, 6], sizeOk := true, hashOk := true }

/-- One file whose size and hash probes both fail, among readable
duplicates. -/
def metaC8 : Meta := fun f =>
  if f = "src/broken.mp3" then { content := [1, 2, 3], sizeOk := false, hashOk := false }
  else { content := [1, 2, 3], sizeOk := true, hashOk := true }

/-- Two distinct source files that share the base name `x.mp3`. -/
def srcX1 : Src := { id := "a/x.mp3", stem := "x", ext := ".mp3" }

/-- See `srcX1`. -/
def srcX2 : Src := { id := "b/x.mp3", stem := "x", ext := ".mp3" }

/-- An empty output folder with both `x.mp3` sources present. -/
def fs0 : FS :=
  { destNames := [], sources := ["a/x.mp3", "b/x.mp3"], destDirExists := false }

/-! ## Lemmas about the read loop -/

/-- With a positive block size, the read loop feeds the hasher exactly
the first `maxHashBytes` bytes of the file. -/
theorem chunkOf_length (cfg : Config) (remaining : List Nat) (bytesRead : Nat) :
    (chunkOf cfg remaining bytesRead).length =
      min (min cfg.blockSize (cfg.maxHashBytes - bytesRead)) remaining.length :=
  List.length_take _ _

theorem hashLoop_take_aux (cfg : Config) (hb : 0 < cfg.blockSize) :
    ∀ (n : Nat) (remaining : List Nat), remaining.length ≤ n →
      ∀ (bytesRead : Nat) (acc : List Nat),
        hashLoop cfg remaining bytesRead acc =
          acc ++ remaining.take (cfg.maxHashBytes - bytesRead) := by
  intro n
  induction n with
  | zero =>
    intro remaining hlen bytesRead acc
    have hnil : remaining = [] := List.length_eq_zero.mp (Nat.le_zero.mp hlen)
    subst hnil
    rw [hashLoop]
    simp [chunkOf]
  | succ n ih =>
    intro remaining hlen bytesRead acc
    rw [hashLoop]
    split
    · next hlt =>
      split
      · next hc =>
        have hn : 0 < min cfg.blockSize (cfg.maxHashBytes - bytesRead) := by omega
        rcases List.take_eq_nil_iff.mp hc with h0 | h0
        · omega
        · simp [h0]
      · next hc =>
        have hpos : 0 < (chunkOf cfg remaining bytesRead).length := List.length_pos.mpr hc
        have hlen2 := chunkOf_length cfg remaining bytesRead
        have hdroplen : (remaining.drop (chunkOf cfg remaining bytesRead).length).length ≤ n := by
          rw [List.length_drop]
          omega
        rw [ih _ hdroplen]
        set c := (chunkOf cfg remaining bytesRead).length with hcdef
        have htake : chunkOf cfg remaining bytesRead = remaining.take c := by
          rw [chunkOf, List.take_eq_take]
          omega
        have hcle : c ≤ cfg.maxHashBytes - bytesRead := by omega
        have hsplit : remaining.take (cfg.maxHashBytes - bytesRead) =
            remaining.take c ++ (remaining.drop c).take (cfg.maxHashBytes - bytesRead - c) := by
          have h2 := List.take_add remaining c (cfg.maxHashBytes - bytesRead - c)
          rw [← h2]
          congr 1
          omega
        rw [htake, hsplit]
        have harg : cfg.maxHashBytes - (bytesRead + c) = cfg.maxHashBytes - bytesRead - c := by
          omega
        rw [harg, List.append_assoc]
    · next hge =>
      have h0 : cfg.maxHashBytes - bytesRead = 0 := by omega
      simp [h0]

theorem hashLoop_eq_take (cfg : Config) (hb : 0 < cfg.blockSize)
    (remaining : List Nat) (bytesRead : Nat) (acc : List Nat) :
    hashLoop cfg remaining bytesRead acc =
      acc ++ remaining.take (cfg.maxHashBytes - bytesRead) :=
  hashLoop_take_aux cfg hb remaining.length remaining le_rfl bytesRead acc

/-- A readable file's digest is exactly its first `maxHashBytes`
bytes (under the idealised injective digest). -/
theorem get_file_hash_eq_take (cfg : Config) (hb : 0 < cfg.blockSize) (meta : Meta)
    (f : String) (h : (meta f).hashOk = true) :
    get_file_hash cfg meta f = some ((meta f).content.take cfg.maxHashBytes) := by
  rw [get_file_hash, if_pos h, hashLoop_eq_take cfg hb]
  simp

/-! ## Lemmas about map building -/

section MapLemmas

variable {κ α : Type} [DecidableEq κ] [DecidableEq α]

theorem mapVals_addToMap_count (m : List (κ × List α)) (k : κ) (v x : α) :
    (mapVals (addToMap m k v)).count x = (mapVals m).count x + if v = x then 1 else 0 := by
  induction m with
  | nil =>
    by_cases hvx : v = x <;> simp [addToMap, mapVals, List.count_singleton, hvx]
  | cons p rest ih =>
    obtain ⟨k', vs⟩ := p
    rw [addToMap]
    by_cases hk : k = k'
    · by_cases hvx : v = x <;>
        simp [hk, hvx, mapVals, List.count_append, List.count_cons] <;> omega
    · simp only [if_neg hk, mapVals, List.map_cons, List.flatten_cons, List.count_append]
      have h2 := ih
      simp only [mapVals] at h2
      rw [h2]
      omega

theorem mapVals_buildMap_count (val : α → Option κ) (files : List α) (x : α) :
    (mapVals (buildMap val files)).count x ≤ files.count x := by
  suffices h : ∀ (files : List α) (acc : List (κ × List α)),
      (mapVals (files.foldl (mapStep val) acc)).count x ≤
        (mapVals acc).count x + files.count x by
    have := h files []
    simpa [buildMap, mapVals] using this
  intro files
  induction files with
  | nil => intro acc; simp
  | cons f fs ih =>
    intro acc
    rw [List.foldl_cons]
    refine (ih (mapStep val acc f)).trans ?_
    have hstep : (mapVals (mapStep val acc f)).count x ≤
        (mapVals acc).count x + if f = x then 1 else 0 := by
      rw [mapStep]
      cases hv : val f with
      | none => simp
      | some k =>
        dsimp only
        rw [mapVals_addToMap_count]
    have hcnt : (f :: fs).count x = fs.count x + if f = x then 1 else 0 := by
      by_cases hfx : f = x <;> simp [List.count_cons, hfx]
    omega

/-- Soundness: every value stored under key `k` really probes to `k`. -/
theorem buildMap_sound (val : α → Option κ) (files : List α) :
    ∀ p ∈ buildMap val files, ∀ x ∈ p.2, val x = some p.1 := by
  suffices h : ∀ (files : List α) (acc : List (κ × List α)),
      (∀ p ∈ acc, ∀ x ∈ p.2, val x = some p.1) →
      ∀ p ∈ files.foldl (mapStep val) acc, ∀ x ∈ p.2, val x = some p.1 by
    exact h files [] (by simp)
  intro files
  induction files with
  | nil => intro acc hacc; simpa using hacc
  | cons f fs ih =>
    intro acc hacc
    rw [List.foldl_cons]
    refine ih _ ?_
    rw [mapStep]
    cases hv : val f with
    | none => exact hacc
    | some k =>
      dsimp only
      clear ih
      induction acc with
      | nil =>
        intro p hp x hx
        simp only [addToMap, List.mem_singleton] at hp
        subst hp
        simp only [List.mem_singleton] at hx
        subst hx
        exact hv
      | cons q rest ihq =>
        obtain ⟨k', vs⟩ := q
        intro p hp x hx
        rw [addToMap] at hp
        by_cases hk : k = k'
        · rw [if_pos hk] at hp
          rcases List.mem_cons.mp hp with h1 | h1
          · subst h1
            rcases List.mem_append.mp hx with h2 | h2
            · exact hacc (k', vs) (by simp) x h2
            · simp only [List.mem_singleton] at h2
              subst h2
              rw [hv, hk]
          · exact hacc p (by simp [h1]) x hx
        · rw [if_neg hk] at hp
          rcases List.mem_cons.mp hp with h1 | h1
          · subst h1
            exact hacc (k', vs) (by simp) x hx
          · exact ihq (fun q hq y hy => hacc q (by simp [hq]) y hy) p h1 x hx

/-- Domain: every stored value comes from the input list. -/
theorem buildMap_mem_input (val : α → Option κ) (files : List α) :
    ∀ p ∈ buildMap val files, ∀ x ∈ p.2, x ∈ files := by
  intro p hp x hx
  have hcnt := mapVals_buildMap_count val files x
  have hmem : x ∈ mapVals (buildMap val files) := by
    simp only [mapVals, List.mem_flatten]
    exact ⟨p.2, List.mem_map.mpr ⟨p, hp, rfl⟩, hx⟩
  have h1 : 1 ≤ (mapVals (buildMap val files)).count x := List.one_le_count_iff.mpr hmem
  exact List.count_pos_iff.mp (by omega)

theorem addToMap_mem_self (m : List (κ × List α)) (k : κ) (v : α) :
    ∃ vs, (k, vs) ∈ addToMap m k v ∧ v ∈ vs := by
  induction m with
  | nil => exact ⟨[v], by simp [addToMap], by simp⟩
  | cons p rest ih =>
    obtain ⟨k', vs'⟩ := p
    rw [addToMap]
    by_cases hk : k = k'
    · subst hk
      exact ⟨vs' ++ [v], by simp, by simp⟩
    · obtain ⟨vs, h1, h2⟩ := ih
      exact ⟨vs, by simp [if_neg hk, h1], h2⟩

theorem addToMap_mem_mono (m : List (κ × List α)) (k : κ) (v : α) (k' : κ) (vs : List α)
    (h : (k', vs) ∈ m) : ∃ vs', (k', vs') ∈ addToMap m k v ∧ vs ⊆ vs' := by
  induction m with
  | nil => simp at h
  | cons p rest ih =>
    obtain ⟨k₀, vs₀⟩ := p
    rw [addToMap]
    by_cases hk : k = k₀
    · rcases List.mem_cons.mp h with h1 | h1
      · cases h1
        exact ⟨vs ++ [v], by simp [hk], List.subset_append_left _ _⟩
      · exact ⟨vs, by simp [hk, h1], by simp⟩
    · rcases List.mem_cons.mp h with h1 | h1
      · cases h1
        exact ⟨vs, by simp [if_neg hk], by simp⟩
      · obtain ⟨vs', h2, h3⟩ := ih h1
        exact ⟨vs', by simp [if_neg hk, h2], h3⟩

/-- Presence: an input that probes successfully lands in the group of
its key. -/
theorem buildMap_mem_of_input (val : α → Option κ) (files : List α) (x : α) (k : κ)
    (hx : x ∈ files) (hv : val x = some k) :
    ∃ vs, (k, vs) ∈ buildMap val files ∧ x ∈ vs := by
  suffices h : ∀ (files : List α) (acc : List (κ × List α)),
      (x ∈ files ∨ ∃ vs, (k, vs) ∈ acc ∧ x ∈ vs) →
      ∃ vs, (k, vs) ∈ files.foldl (mapStep val) acc ∧ x ∈ vs by
    exact h files [] (Or.inl hx)
  intro files
  induction files with
  | nil =>
    intro acc hacc
    rcases hacc with h1 | h1
    · simp at h1
    · simpa using h1
  | cons f fs ih =>
    intro acc hacc
    rw [List.foldl_cons]
    rcases hacc with h1 | h1
    · rcases List.mem_cons.mp h1 with h2 | h2
      · subst h2
        refine ih _ (Or.inr ?_)
        rw [mapStep, hv]
        exact addToMap_mem_self acc k x
      · exact ih _ (Or.inl h2)
    · obtain ⟨vs, hm, hxm⟩ := h1
      refine ih _ (Or.inr ?_)
      rw [mapStep]
      cases hv' : val f with
      | none => exact ⟨vs, hm, hxm⟩
      | some k₀ =>
        dsimp only
        obtain ⟨vs', h2, h3⟩ := addToMap_mem_mono acc k₀ f k vs hm
        exact ⟨vs', h2, h3 hxm⟩

theorem addToMap_keys (m : List (κ × List α)) (k : κ) (v : α) :
    (addToMap m k v).map Prod.fst =
      if k ∈ m.map Prod.fst then m.map Prod.fst else m.map Prod.fst ++ [k] := by
  induction m with
  | nil => simp [addToMap]
  | cons p rest ih =>
    obtain ⟨k', vs⟩ := p
    rw [addToMap]
    by_cases hk : k = k'
    · simp [hk]
    · simp only [if_neg hk, List.map_cons, ih]
      by_cases hmem : k ∈ rest.map Prod.fst <;> simp [hmem, hk]

/-- Keys of a built map are pairwise distinct. -/
theorem buildMap_keys_nodup (val : α → Option κ) (files : List α) :
    ((buildMap val files).map Prod.fst).Nodup := by
  suffices h : ∀ (files : List α) (acc : List (κ × List α)),
      (acc.map Prod.fst).Nodup → ((files.foldl (mapStep val) acc).map Prod.fst).Nodup by
    exact h files [] (by simp)
  intro files
  induction files with
  | nil => intro acc hacc; simpa using hacc
  | cons f fs ih =>
    intro acc hacc
    rw [List.foldl_cons]
    refine ih _ ?_
    rw [mapStep]
    cases hv : val f with
    | none => exact hacc
    | some k =>
      dsimp only
      rw [addToMap_keys]
      by_cases hmem : k ∈ acc.map Prod.fst
      · simpa [hmem] using hacc
      · rw [if_neg hmem, List.nodup_append]
        refine ⟨hacc, List.nodup_singleton k, ?_⟩
        intro a ha hb
        rw [List.mem_singleton] at hb
        subst hb
        exact hmem ha

/-- With nodup keys, an entry is determined by its key. -/
theorem entry_unique {m : List (κ × List α)} (hnd : (m.map Prod.fst).Nodup)
    {k : κ} {vs vs' : List α} (h1 : (k, vs) ∈ m) (h2 : (k, vs') ∈ m) : vs = vs' := by
  induction m with
  | nil => simp at h1
  | cons p rest ih =>
    obtain ⟨k₀, vs₀⟩ := p
    simp only [List.map_cons, List.nodup_cons] at hnd
    rcases List.mem_cons.mp h1 with ha | ha
    · cases ha
      rcases List.mem_cons.mp h2 with hb | hb
      · injection hb with hb1 hb2
        exact hb2.symm
      · exact absurd (List.mem_map.mpr ⟨(k, vs'), hb, rfl⟩) hnd.1
    · rcases List.mem_cons.mp h2 with hb | hb
      · cases hb
        exact absurd (List.mem_map.mpr ⟨(k, vs), ha, rfl⟩) hnd.1
      · exact ih hnd.2 ha hb

/-- Group values are a sublist of the drained input: appending a value
keeps every group a sublist of the input seen so far. -/
theorem addToMap_sublist (m : List (κ × List α)) (k : κ) (v : α) (pre : List α)
    (hm : ∀ p ∈ m, p.2.Sublist pre) :
    ∀ p ∈ addToMap m k v, p.2.Sublist (pre ++ [v]) := by
  induction m with
  | nil =>
    intro p hp
    simp only [addToMap, List.mem_singleton] at hp
    subst hp
    exact List.sublist_append_right pre [v]
  | cons q rest ih =>
    obtain ⟨k₀, vs₀⟩ := q
    intro p hp
    rw [addToMap] at hp
    by_cases hk : k = k₀
    · rw [if_pos hk] at hp
      rcases List.mem_cons.mp hp with h1 | h1
      · subst h1
        exact (hm (k₀, vs₀) (by simp)).append (List.Sublist.refl [v])
      · exact ((hm p (by simp [h1]))).trans (List.sublist_append_left pre [v])
    · rw [if_neg hk] at hp
      rcases List.mem_cons.mp hp with h1 | h1
      · subst h1
        exact (hm (k₀, vs₀) (by simp)).trans (List.sublist_append_left pre [v])
      · exact ih (fun q hq => hm q (by simp [hq])) p h1

/-- Every group of a built map lists its members in input order: it is
a sublist of the input list. -/
theorem buildMap_sublist_input (val : α → Option κ) (files : List α) :
    ∀ p ∈ buildMap val files, p.2.Sublist files := by
  suffices h : ∀ (files : List α) (acc : List (κ × List α)) (pre : List α),
      (∀ p ∈ acc, p.2.Sublist pre) →
      ∀ p ∈ files.foldl (mapStep val) acc, p.2.Sublist (pre ++ files) by
    intro p hp
    simpa using h files [] [] (by simp) p hp
  intro files
  induction files with
  | nil =>
    intro acc pre hacc p hp
    simpa using hacc p hp
  | cons f fs ih =>
    intro acc pre hacc p hp
    rw [List.foldl_cons] at hp
    have hstep : ∀ q ∈ mapStep val acc f, q.2.Sublist (pre ++ [f]) := by
      rw [mapStep]
      cases hv : val f with
      | none =>
        intro q hq
        exact (hacc q hq).trans (List.sublist_append_left pre [f])
      | some k =>
        dsimp only
        exact addToMap_sublist acc k f pre hacc
    have := ih (mapStep val acc f) (pre ++ [f]) hstep p hp
    simpa [List.append_assoc] using this

end MapLemmas

/-! ## Lemmas about the duplicate resolver -/

theorem duplicatesList_eq (refHM srcHM : List (Digest × List String)) :
    duplicatesList refHM srcHM = (srcHM.map (dupContrib refHM)).flatten := by
  suffices h : ∀ (src : List (Digest × List String)) (acc : List String),
      src.foldl
        (fun acc p =>
          if hasKey refHM p.1 then acc ++ p.2
          else if 1 < p.2.length then acc ++ p.2.tail
          else acc)
        acc = acc ++ (src.map (dupContrib refHM)).flatten by
    rw [duplicatesList, h srcHM []]
    simp
  intro src
  induction src with
  | nil => intro acc; simp
  | cons p ps ih =>
    intro acc
    rw [List.foldl_cons, ih]
    by_cases h1 : hasKey refHM p.1
    · simp [dupContrib, h1]
    · by_cases h2 : 1 < p.2.length
      · simp [dupContrib, h1, h2]
      · simp [dupContrib, h1, h2]

theorem mem_duplicatesList (refHM srcHM : List (Digest × List String)) (x : String) :
    x ∈ duplicatesList refHM srcHM ↔ ∃ p ∈ srcHM, x ∈ dupContrib refHM p := by
  rw [duplicatesList_eq]
  simp only [List.mem_flatten, List.mem_map]
  constructor
  · rintro ⟨l, ⟨p, hp, rfl⟩, hx⟩
    exact ⟨p, hp, hx⟩
  · rintro ⟨p, hp, hx⟩
    exact ⟨dupContrib refHM p, ⟨p, hp, rfl⟩, hx⟩

/-- Whatever an entry contributes comes from that entry's path list. -/
theorem dupContrib_subset (refHM : List (Digest × List String))
    (p : Digest × List String) : dupContrib refHM p ⊆ p.2 := by
  rw [dupContrib]
  by_cases h1 : hasKey refHM p.1
  · simp [h1]
  · by_cases h2 : 1 < p.2.length
    · simp only [if_neg h1, if_pos h2]
      exact List.tail_subset p.2
    · simp [h1, h2]

/-! ## Lemmas about size bucketing -/

theorem files_to_hash_subset (meta : Meta) (files : List String) :
    files_to_hash meta files ⊆ files := by
  intro x hx
  rw [files_to_hash] at hx
  simp only [List.mem_flatten, List.mem_map] at hx
  obtain ⟨l, ⟨p, hp, rfl⟩, hxl⟩ := hx
  exact buildMap_mem_input (get_file_size meta) files p (List.mem_filter.mp hp).1 x hxl

theorem subset_files_to_hash (meta : Meta) (files : List String) (s : Nat) (vs : List String)
    (hmem : (s, vs) ∈ size_map meta files) (hlen : 1 < vs.length) :
    vs ⊆ files_to_hash meta files := by
  intro x hx
  rw [files_to_hash]
  simp only [List.mem_flatten, List.mem_map]
  refine ⟨vs, ⟨(s, vs), ?_, rfl⟩, hx⟩
  rw [List.mem_filter]
  exact ⟨hmem, by simpa using hlen⟩

theorem one_lt_length_of_two_mem {α : Type} {l : List α} {x y : α} (hx : x ∈ l)
    (hy : y ∈ l) (hxy : x ≠ y) : 1 < l.length := by
  match l with
  | [] => simp at hx
  | [a] =>
    rw [List.mem_singleton] at hx hy
    subst hx
    subst hy
    exact absurd rfl hxy
  | a :: b :: t => simp only [List.length_cons]; omega

/-- Inverting a successful `get_file_hash`: the file was readable and
the digest is its `maxHashBytes` prefix. -/
theorem get_file_hash_inv (cfg : Config) (hb : 0 < cfg.blockSize) (meta : Meta)
    (f : String) (h : Digest) (hv : get_file_hash cfg meta f = some h) :
    (meta f).hashOk = true ∧ h = (meta f).content.take cfg.maxHashBytes := by
  by_cases hok : (meta f).hashOk = true
  · rw [get_file_hash_eq_take cfg hb meta f hok] at hv
    exact ⟨hok, (Option.some.inj hv).symm⟩
  · rw [get_file_hash, if_neg hok] at hv
    exact absurd hv (by simp)

/-- A file whose probe fails contributes nothing: the built map is the
same as if the file were absent from the input. -/
theorem buildMap_skip_none {κ α : Type} [DecidableEq κ] [DecidableEq α]
    (val : α → Option κ) (f : α) (hf : val f = none) (files : List α) :
    buildMap val files = buildMap val (files.filter (fun g => g ≠ f)) := by
  suffices h : ∀ (files : List α) (acc : List (κ × List α)),
      files.foldl (mapStep val) acc = (files.filter (fun g => g ≠ f)).foldl (mapStep val) acc by
    exact h files []
  intro files
  induction files with
  | nil => intro acc; rfl
  | cons g gs ih =>
    intro acc
    by_cases hg : g = f
    · subst hg
      have hstep : mapStep val acc g = acc := by rw [mapStep, hf]
      rw [List.foldl_cons, hstep, List.filter_cons, if_neg (by simp)]
      exact ih acc
    · rw [List.foldl_cons, List.filter_cons, if_pos (by simp [hg]), List.foldl_cons]
      exact ih (mapStep val acc g)

/-! ## Lemmas about the relocation engine -/

/-- Characterisation of a successful collision-loop search started at
candidate `k`: the result is the first free candidate at or after `k`. -/
theorem findFreeName_spec (names : List String) (s : Src) :
    ∀ (fuel k j : Nat), findFreeName names s k fuel = some j →
      k ≤ j ∧ candidateName s j ∉ names ∧
        ∀ i, k ≤ i → i < j → candidateName s i ∈ names := by
  intro fuel
  induction fuel with
  | zero => intro k j h; simp [findFreeName] at h
  | succ fuel ih =>
    intro k j h
    rw [findFreeName] at h
    by_cases hc : candidateName s k ∈ names
    · rw [if_pos hc] at h
      obtain ⟨h1, h2, h3⟩ := ih (k + 1) j h
      refine ⟨by omega, h2, ?_⟩
      intro i hi1 hi2
      rcases Nat.eq_or_lt_of_le hi1 with heq | hlt
      · subst heq
        exact hc
      · exact h3 i hlt hi2
    · rw [if_neg hc] at h
      have hj : k = j := Option.some.inj h
      subst hj
      exact ⟨le_rfl, hc, fun i hi1 hi2 => absurd (lt_of_le_of_lt hi1 hi2) (lt_irrefl k)⟩

/-- One unfolding of the retry loop with fuel left. -/
theorem attemptLoop_succ (cfg : Config) (oracle : Nat → RenameRes)
    (fallback : Except String Unit) (attempt fuel : Nat) :
    attemptLoop cfg oracle fallback attempt (fuel + 1) =
      match oracle attempt with
      | RenameRes.ok => (Except.ok MoveKind.renamed, [])
      | RenameRes.osErr =>
          match fallback with
          | Except.ok _ => (Except.ok MoveKind.fallbackMoved, [])
          | Except.error e => (Except.error e, [])
      | RenameRes.exn e =>
          if attempt + 1 > cfg.retries then (Except.error e, [])
          else
            (
              (attemptLoop cfg oracle fallback (attempt + 1) fuel).1,
              cfg.retryDelay * 2 ^ (attempt + 1)
                :: (attemptLoop cfg oracle fallback (attempt + 1) fuel).2) := rfl

/-- The all-failures run of the retry loop: starting at `attempt` with
`attempt + n = RETRIES`, it performs `n` more retries with doubling
delays and then re-raises. -/
theorem attemptLoop_all_exn (cfg : Config) (oracle : Nat → RenameRes)
    (fallback : Except String Unit) (e : String) (hor : ∀ n, oracle n = RenameRes.exn e) :
    ∀ (n attempt : Nat), attempt + n = cfg.retries →
      attemptLoop cfg oracle fallback attempt (n + 1) =
        (Except.error e,
          (List.range n).map (fun i => cfg.retryDelay * 2 ^ (attempt + i + 1))) := by
  intro n
  induction n with
  | zero =>
    intro attempt hat
    have hcond : cfg.retries < attempt + 1 := by omega
    rw [attemptLoop_succ, hor attempt]
    simp [hcond]
  | succ n ih =>
    intro attempt hat
    have hcond : ¬(cfg.retries < attempt + 1) := by omega
    rw [attemptLoop_succ, hor attempt]
    simp only [gt_iff_lt, hcond, if_false]
    rw [ih (attempt + 1) (by omega)]
    rw [List.range_succ_eq_map]
    simp only [List.map_cons, List.map_map]
    refine Prod.ext rfl ?_
    simp only [Nat.add_zero]
    refine congrArg₂ List.cons rfl ?_
    refine List.map_congr_left ?_
    intro i _hi
    simp only [Function.comp_apply]
    congr 2
    omega

theorem attemptLoop_first_ok (cfg : Config) (oracle : Nat → RenameRes)
    (fallback : Except String Unit) (attempt fuel : Nat)
    (h : oracle attempt = RenameRes.ok) :
    attemptLoop cfg oracle fallback attempt (fuel + 1) =
      (Except.ok MoveKind.renamed, []) := by
  rw [attemptLoop_succ, h]

theorem attemptLoop_osErr_fallback_ok (cfg : Config) (oracle : Nat → RenameRes)
    (fallback : Except String Unit) (attempt fuel : Nat)
    (h : oracle attempt = RenameRes.osErr) (hf : fallback = Except.ok ()) :
    attemptLoop cfg oracle fallback attempt (fuel + 1) =
      (Except.ok MoveKind.fallbackMoved, []) := by
  rw [attemptLoop_succ, h, hf]

theorem attemptLoop_osErr_fallback_err (cfg : Config) (oracle : Nat → RenameRes)
    (fallback : Except String Unit) (attempt fuel : Nat) (e : String)
    (h : oracle attempt = RenameRes.osErr) (hf : fallback = Except.error e) :
    attemptLoop cfg oracle fallback attempt (fuel + 1) = (Except.error e, []) := by
  rw [attemptLoop_succ, h, hf]

theorem moveFileBody_noName (cfg : Config) (oracle : Nat → RenameRes)
    (fallback : Except String Unit) (s : Src) (fuel : Nat) (fs : FS)
    (hf : findFreeName fs.destNames s 0 fuel = none) :
    moveFileBody cfg oracle fallback s fuel fs =
      (fs, Except.error "collision loop did not terminate", []) := by
  unfold moveFileBody
  rw [hf]

theorem moveFileBody_dry (cfg : Config) (oracle : Nat → RenameRes)
    (fallback : Except String Unit) (s : Src) (fuel : Nat) (fs : FS) (k : Nat)
    (hf : findFreeName fs.destNames s 0 fuel = some k) (hdry : cfg.dryRun = true) :
    moveFileBody cfg oracle fallback s fuel fs =
      (fs, Except.ok (Outcome.dryRunMove (candidateName s k)), []) := by
  unfold moveFileBody
  rw [hf]
  dsimp only
  rw [if_pos hdry]

theorem moveFileBody_real_ok (cfg : Config) (oracle : Nat → RenameRes)
    (fallback : Except String Unit) (s : Src) (fuel : Nat) (fs : FS) (k : Nat)
    (kind : MoveKind) (ds : List Nat)
    (hf : findFreeName fs.destNames s 0 fuel = some k) (hdry : cfg.dryRun = false)
    (ha : attemptLoop cfg oracle fallback 0 (cfg.retries + 1) = (Except.ok kind, ds)) :
    moveFileBody cfg oracle fallback s fuel fs =
      (⟨candidateName s k :: fs.destNames, fs.sources.filter (fun p => p ≠ s.id), true⟩,
        Except.ok (Outcome.moved (candidateName s k) kind), ds) := by
  unfold moveFileBody
  rw [hf]
  dsimp only
  rw [if_neg (by simp [hdry]), ha]

theorem moveFileBody_real_err (cfg : Config) (oracle : Nat → RenameRes)
    (fallback : Except String Unit) (s : Src) (fuel : Nat) (fs : FS) (k : Nat)
    (e : String) (ds : List Nat)
    (hf : findFreeName fs.destNames s 0 fuel = some k) (hdry : cfg.dryRun = false)
    (ha : attemptLoop cfg oracle fallback 0 (cfg.retries + 1) = (Except.error e, ds)) :
    moveFileBody cfg oracle fallback s fuel fs =
      (⟨fs.destNames, fs.sources, true⟩, Except.error e, ds) := by
  unfold moveFileBody
  rw [hf]
  dsimp only
  rw [if_neg (by simp [hdry]), ha]

theorem move_file_of_body_ok (cfg : Config) (oracle : Nat → RenameRes)
    (fallback : Except String Unit) (s : Src) (fuel : Nat) (fs fs' : FS) (o : Outcome)
    (ds : List Nat) (hbody : moveFileBody cfg oracle fallback s fuel fs = (fs', Except.ok o, ds)) :
    move_file cfg oracle fallback s fuel fs = (fs', o, ds) := by
  unfold move_file
  rw [hbody]

/-- In dry-run mode a single `move_file` leaves the filesystem
untouched and sleeps no delays. -/
theorem move_file_dry_fs (cfg : Config) (oracle : Nat → RenameRes)
    (fallback : Except String Unit) (s : Src) (fuel : Nat) (fs : FS)
    (hdry : cfg.dryRun = true) :
    (move_file cfg oracle fallback s fuel fs).1 = fs := by
  cases hf : findFreeName fs.destNames s 0 fuel with
  | none =>
    unfold move_file
    rw [moveFileBody_noName cfg oracle fallback s fuel fs hf]
  | some k =>
    unfold move_file
    rw [moveFileBody_dry cfg oracle fallback s fuel fs k hf hdry]

/-- In dry-run mode the whole batch leaves the filesystem untouched and
each outcome is the one `move_file` computes against the initial
state. -/
theorem move_files_dry (cfg : Config) (oracle : Src → Nat → RenameRes)
    (fallback : Src → Except String Unit) (files : List Src) (fuel : Nat) (fs : FS)
    (hdry : cfg.dryRun = true) :
    move_files cfg oracle fallback files fuel fs =
      (fs, files.map (fun s => (move_file cfg (oracle s) (fallback s) s fuel fs).2.1)) := by
  suffices h : ∀ (files : List Src) (acc : List Outcome),
      files.foldl
        (fun st s =>
          let r := move_file cfg (oracle s) (fallback s) s fuel st.1
          (r.1, st.2 ++ [r.2.1]))
        (fs, acc) =
        (fs, acc ++ files.map (fun s => (move_file cfg (oracle s) (fallback s) s fuel fs).2.1)) by
    rw [move_files, h files []]
    simp
  intro files
  induction files with
  | nil => intro acc; simp
  | cons s ss ih =>
    intro acc
    rw [List.foldl_cons]
    have hfs : (move_file cfg (oracle s) (fallback s) s fuel fs).1 = fs :=
      move_file_dry_fs cfg (oracle s) (fallback s) s fuel fs hdry
    simp only [hfs]
    rw [ih (acc ++ [(move_file cfg (oracle s) (fallback s) s fuel fs).2.1])]
    simp

/-! ## Fixture evaluations

`hashLoop` is defined by well-founded recursion, which the kernel does
not unfold, so concrete digests are computed through
`get_file_hash_eq_take` once and reused. -/

/-- Fixture evaluation: every file of `metaC3` hashes to its 2-byte
content. -/
theorem get_file_hash_metaC3 (f : String) :
    get_file_hash cfgSmall metaC3 f = some [5, 6] := by
  rw [get_file_hash_eq_take cfgSmall (by decide) metaC3 f rfl]
  rfl

/-- Fixture evaluation: every file of `metaC2` hashes to the shared
2-byte prefix digest `[0, 0]`. -/
theorem get_file_hash_metaC2 (f : String) :
    get_file_hash cfgC2 metaC2 f = some [0, 0] := by
  have hok : (metaC2 f).hashOk = true := by
    rw [metaC2]
    split <;> rfl
  rw [get_file_hash_eq_take cfgC2 (by decide) metaC2 f hok]
  rw [metaC2]
  split <;> rfl

theorem hash_map_metaC2_eval :
    hash_map cfgC2 metaC2 ["a1", "a2", "b1", "b2"] =
      [([0, 0], ["a1", "a2", "b1", "b2"])] := by
  simp [hash_map, buildMap, mapStep, get_file_hash_metaC2, addToMap]

theorem hash_map_metaC3_ba_eval :
    hash_map cfgSmall metaC3 ["b", "a"] = [([5, 6], ["b", "a"])] := by
  simp [hash_map, buildMap, mapStep, get_file_hash_metaC3, addToMap]

theorem hash_map_metaC3_ab_eval :
    hash_map cfgSmall metaC3 ["a", "b"] = [([5, 6], ["a", "b"])] := by
  simp [hash_map, buildMap, mapStep, get_file_hash_metaC3, addToMap]

/-! ## Claims -/

/-- **C1** (code bug): on the spec's own end-to-end scenario — the
reference tree holds `song.mp3`, the source tree holds a byte-identical
`song_copy.mp3` plus an unrelated `unique.flac` of another size — the
pipeline produces an **empty** duplicate list: each matching file is the
only file of its size within its own tree, `process_files` therefore
never hashes it, and `song_copy.mp3` is not selected, contradicting the
spec's expectation that it is relocated. -/
theorem c1_cross_tree_singleton_missed :
    (metaC1 "src/song_copy.mp3").content = (metaC1 "ref/song.mp3").content ∧
    get_file_size metaC1 "src/song_copy.mp3" = get_file_size metaC1 "ref/song.mp3" ∧
    duplicatesList (process_files cfgSmall metaC1 ["ref/song.mp3"]).2
      (process_files cfgSmall metaC1 ["src/song_copy.mp3", "src/unique.flac"]).2 = [] := by
  decide

/-- **C4**: every fingerprint present in both indexes has all of its
source paths selected — the duplicate-identification loop extends the
whole path list whenever the hash is in the reference set. -/
theorem c4_reference_match_selects_all :
    ∀ (refHM srcHM : List (Digest × List String)) (h : Digest) (ps : List String)
      (x : String),
      (h, ps) ∈ srcHM → hasKey refHM h = true → x ∈ ps →
      x ∈ duplicatesList refHM srcHM := by
  intro refHM srcHM h ps x hmem hk hx
  rw [mem_duplicatesList]
  refine ⟨(h, ps), hmem, ?_⟩
  rw [dupContrib]
  simp only [hk, if_true]
  exact hx

/-- Witness for `c4_reference_match_selects_all`. -/
theorem c4_reference_match_selects_all_witness :
    "s1" ∈ duplicatesList [([1], ["r"])] [([1], ["s1", "s2"])] :=
  c4_reference_match_selects_all [([1], ["r"])] [([1], ["s1", "s2"])] [1] ["s1", "s2"] "s1"
    (by decide) (by decide) (by decide)

/-- **C7**: the duplicate list is drawn exclusively from the source
index's path lists, so (for disjoint trees) no reference path is ever
selected for removal. -/
theorem c7_reference_paths_never_selected :
    ∀ (cfg : Config) (meta : Meta) (refFiles srcFiles refOrder srcOrder : List String)
      (x : String),
      srcOrder.Perm (files_to_hash meta srcFiles) →
      (∀ y, y ∈ refFiles → y ∉ srcFiles) →
      x ∈ duplicatesList (hash_map cfg meta refOrder) (hash_map cfg meta srcOrder) →
      x ∈ srcFiles ∧ x ∉ refFiles := by
  intro cfg meta refFiles srcFiles refOrder srcOrder x hperm hdisj hx
  rw [mem_duplicatesList] at hx
  obtain ⟨p, hp, hcontrib⟩ := hx
  have hxp : x ∈ p.2 := dupContrib_subset _ p hcontrib
  have hord : x ∈ srcOrder := buildMap_mem_input _ srcOrder p hp x hxp
  have hfth : x ∈ files_to_hash meta srcFiles := hperm.mem_iff.mp hord
  have hsrc : x ∈ srcFiles := files_to_hash_subset meta srcFiles hfth
  exact ⟨hsrc, fun href => hdisj x href hsrc⟩

/-- Witness for `c7_reference_paths_never_selected`. -/
theorem c7_reference_paths_never_selected_witness :
    "b" ∈ ["a", "b"] ∧ "b" ∉ ["ref/r.mp3"] :=
  c7_reference_paths_never_selected cfgSmall metaC3 ["ref/r.mp3"] ["a", "b"] []
    ["a", "b"] "b" (by decide) (by decide)
    (by
      have h : duplicatesList (hash_map cfgSmall metaC3 [])
          (hash_map cfgSmall metaC3 ["a", "b"]) = ["b"] := by
        rw [hash_map_metaC3_ab_eval]
        decide
      rw [h]
      exact List.mem_singleton.mpr rfl)

/-- **C10**: `move_file`'s outermost handler catches every exception of
its body — including the re-raise after exhausted retries — and turns
it into a logged per-path failure, so `move_file` always returns
normally. -/
theorem c10_move_file_catches_all :
    ∀ (cfg : Config) (oracle : Nat → RenameRes) (fallback : Except String Unit)
      (s : Src) (fuel : Nat) (fs fs' : FS) (e : String) (ds : List Nat),
      moveFileBody cfg oracle fallback s fuel fs = (fs', Except.error e, ds) →
      move_file cfg oracle fallback s fuel fs = (fs', Outcome.failed e, ds) := by
  intro cfg oracle fallback s fuel fs fs' e ds hbody
  unfold move_file
  rw [hbody]

/-- Witness for `c10_move_file_catches_all`: a run whose every rename
attempt raises a non-OSError exception exhausts the retries, re-raises,
and is caught. -/
theorem c10_move_file_catches_all_witness :
    move_file cfgSmall (fun _ => RenameRes.exn "boom") (Except.ok ()) srcX1 10 fs0 =
      (⟨[], ["a/x.mp3", "b/x.mp3"], true⟩, Outcome.failed "boom", [2, 4, 8]) :=
  c10_move_file_catches_all cfgSmall (fun _ => RenameRes.exn "boom") (Except.ok ())
    srcX1 10 fs0 ⟨[], ["a/x.mp3", "b/x.mp3"], true⟩ "boom" [2, 4, 8] rfl

/-- **C6** (counterexample): with the script's own configuration
(`RETRIES = 3`, `RETRY_DELAY = 1`), persistent non-OSError failures
sleep `[2, 4, 8]` seconds — the delay before the first retry is twice
the configured base delay, not the base delay `[1, 2, 4]` the claim's
`base * 2^(i-1)` formula predicts. -/
theorem c6_backoff_counterexample :
    (attemptLoop defaultConfig (fun _ => RenameRes.exn "io error") (Except.ok ()) 0
        (defaultConfig.retries + 1)).2 = [2, 4, 8] ∧
    [2, 4, 8] ≠
      (List.range defaultConfig.retries).map (fun i => defaultConfig.retryDelay * 2 ^ i) := by
  decide

/-- **C6** (amended): a non-OSError rename failure is retried up to
`RETRIES` times with the delay before the `i`-th retry equal to
`RETRY_DELAY * 2 ^ i` — starting at twice the base delay and doubling —
after which the exception surfaces (to `move_file`'s own handler, so it
fails that path only); an `OSError` is never retried: it triggers the
`shutil.move` fallback exactly once, with no delays. -/
theorem c6_retry_backoff_amended :
    (∀ (cfg : Config) (oracle : Nat → RenameRes) (fallback : Except String Unit)
       (e : String),
      (∀ n, oracle n = RenameRes.exn e) →
      attemptLoop cfg oracle fallback 0 (cfg.retries + 1) =
        (Except.error e,
          (List.range cfg.retries).map (fun i => cfg.retryDelay * 2 ^ (i + 1)))) ∧
    (∀ (cfg : Config) (oracle : Nat → RenameRes) (fallback : Except String Unit)
       (e : String),
      oracle 0 = RenameRes.osErr → fallback = Except.error e →
      attemptLoop cfg oracle fallback 0 (cfg.retries + 1) = (Except.error e, [])) ∧
    (∀ (cfg : Config) (oracle : Nat → RenameRes) (fallback : Except String Unit),
      oracle 0 = RenameRes.osErr → fallback = Except.ok () →
      attemptLoop cfg oracle fallback 0 (cfg.retries + 1) =
        (Except.ok MoveKind.fallbackMoved, [])) := by
  refine ⟨?_, ?_, ?_⟩
  · intro cfg oracle fallback e hor
    have h := attemptLoop_all_exn cfg oracle fallback e hor cfg.retries 0 (by omega)
    simpa only [Nat.zero_add] using h
  · intro cfg oracle fallback e h1 h2
    exact attemptLoop_osErr_fallback_err cfg oracle fallback 0 cfg.retries e h1 h2
  · intro cfg oracle fallback h1 h2
    exact attemptLoop_osErr_fallback_ok cfg oracle fallback 0 cfg.retries h1 h2

/-- **C2** (counterexample): two duplicate pairs of sizes 3 and 4 that
share their first `maxHashBytes = 2` bytes all land under the **same**
`hash_map` key, so `process_files` does group paths of different sizes
together: the digest alone is not a sufficient key across size
buckets. -/
theorem c2_mixed_sizes_share_key_counterexample :
    hash_map cfgC2 metaC2 (files_to_hash metaC2 ["a1", "a2", "b1", "b2"]) =
      [([0, 0], ["a1", "a2", "b1", "b2"])] ∧
    get_file_size metaC2 "a1" = some 3 ∧ get_file_size metaC2 "b1" = some 4 := by
  have hfth : files_to_hash metaC2 ["a1", "a2", "b1", "b2"] = ["a1", "a2", "b1", "b2"] := by
    decide
  rw [hfth]
  exact ⟨hash_map_metaC2_eval, by decide, by decide⟩

/-- **C2** (amended): two readable files of identical size and
identical first-`maxHashBytes` content are placed in the same group
(their shared size bucket has two members, so both are hashed to the
same digest); and files of different sizes can share a group **only**
when both sizes reach `maxHashBytes` — when either file is shorter than
the prefix bound, different sizes imply different digests and the files
are never grouped together. -/
theorem c2_grouping_amended :
    (∀ (cfg : Config) (meta : Meta) (files order : List String) (f1 f2 : String),
      0 < cfg.blockSize →
      order.Perm (files_to_hash meta files) →
      f1 ∈ files → f2 ∈ files → f1 ≠ f2 →
      (meta f1).sizeOk = true → (meta f2).sizeOk = true →
      (meta f1).hashOk = true → (meta f2).hashOk = true →
      (meta f1).content.length = (meta f2).content.length →
      (meta f1).content.take cfg.maxHashBytes = (meta f2).content.take cfg.maxHashBytes →
      ∃ ps, ((meta f1).content.take cfg.maxHashBytes, ps) ∈ hash_map cfg meta order ∧
        f1 ∈ ps ∧ f2 ∈ ps) ∧
    (∀ (cfg : Config) (meta : Meta) (order : List String) (h : Digest) (ps : List String)
       (f1 f2 : String),
      0 < cfg.blockSize →
      (h, ps) ∈ hash_map cfg meta order → f1 ∈ ps → f2 ∈ ps →
      (meta f1).content.length ≠ (meta f2).content.length →
      cfg.maxHashBytes ≤ (meta f1).content.length ∧
      cfg.maxHashBytes ≤ (meta f2).content.length) := by
  constructor
  · intro cfg meta files order f1 f2 hb hperm hf1 hf2 hne hs1 hs2 hh1 hh2 hlen hpref
    have hsz1 : get_file_size meta f1 = some (meta f1).content.length := by
      rw [get_file_size, if_pos hs1]
    have hsz2 : get_file_size meta f2 = some (meta f1).content.length := by
      rw [get_file_size, if_pos hs2, hlen]
    obtain ⟨vs1, hv1, hm1⟩ := buildMap_mem_of_input (get_file_size meta) files f1 _ hf1 hsz1
    obtain ⟨vs2, hv2, hm2⟩ := buildMap_mem_of_input (get_file_size meta) files f2 _ hf2 hsz2
    have hnd := buildMap_keys_nodup (get_file_size meta) files
    have hvv : vs1 = vs2 := entry_unique hnd hv1 hv2
    subst hvv
    have hlen2 : 1 < vs1.length := one_lt_length_of_two_mem hm1 hm2 hne
    have hsubset : vs1 ⊆ files_to_hash meta files :=
      subset_files_to_hash meta files _ vs1 hv1 hlen2
    have ho1 : f1 ∈ order := hperm.mem_iff.mpr (hsubset hm1)
    have ho2 : f2 ∈ order := hperm.mem_iff.mpr (hsubset hm2)
    have hg1 : get_file_hash cfg meta f1 = some ((meta f1).content.take cfg.maxHashBytes) :=
      get_file_hash_eq_take cfg hb meta f1 hh1
    have hg2 : get_file_hash cfg meta f2 = some ((meta f1).content.take cfg.maxHashBytes) := by
      rw [get_file_hash_eq_take cfg hb meta f2 hh2, hpref]
    obtain ⟨ps1, hp1, hq1⟩ := buildMap_mem_of_input (get_file_hash cfg meta) order f1 _ ho1 hg1
    obtain ⟨ps2, hp2, hq2⟩ := buildMap_mem_of_input (get_file_hash cfg meta) order f2 _ ho2 hg2
    have hndh := buildMap_keys_nodup (get_file_hash cfg meta) order
    have hpp : ps1 = ps2 := entry_unique hndh hp1 hp2
    subst hpp
    exact ⟨ps1, hp1, hq1, hq2⟩
  · intro cfg meta order h ps f1 f2 hb hmem hx1 hx2 hneq
    have hv1 := buildMap_sound (get_file_hash cfg meta) order (h, ps) hmem f1 hx1
    have hv2 := buildMap_sound (get_file_hash cfg meta) order (h, ps) hmem f2 hx2
    obtain ⟨hok1, he1⟩ := get_file_hash_inv cfg hb meta f1 h hv1
    obtain ⟨hok2, he2⟩ := get_file_hash_inv cfg hb meta f2 h hv2
    have ht : (meta f1).content.take cfg.maxHashBytes =
        (meta f2).content.take cfg.maxHashBytes := by
      rw [← he1, ← he2]
    have hl := congrArg List.length ht
    rw [List.length_take, List.length_take] at hl
    constructor <;> omega

/-- Witness for `c2_grouping_amended`: both conjuncts applied at
concrete inputs. -/
theorem c2_grouping_amended_witness :
    (∃ ps, ((metaC3 "a").content.take cfgSmall.maxHashBytes, ps) ∈
        hash_map cfgSmall metaC3 ["a", "b"] ∧ "a" ∈ ps ∧ "b" ∈ ps) ∧
    cfgC2.maxHashBytes ≤ (metaC2 "a1").content.length ∧
    cfgC2.maxHashBytes ≤ (metaC2 "b1").content.length :=
  ⟨c2_grouping_amended.1 cfgSmall metaC3 ["a", "b"] ["a", "b"] "a" "b" (by decide)
      (by decide) (by decide) (by decide) (by decide) rfl rfl rfl rfl rfl rfl,
   c2_grouping_amended.2 cfgC2 metaC2 ["a1", "a2", "b1", "b2"] [0, 0]
      ["a1", "a2", "b1", "b2"] "a1" "b1" (by decide)
      (by rw [hash_map_metaC2_eval]; exact List.mem_singleton.mpr rfl)
      (by decide) (by decide) (by decide)⟩

/-- **C3** (counterexample): `["b", "a"]` is a legitimate completion
order of the hashing futures for discovery order `["a", "b"]`, and
under it the first-discovered path `"a"` **is** selected for removal —
the retained path is the first by hashing completion order, not the
first by discovery order as the claim requires for every completion
order. -/
theorem c3_completion_order_counterexample :
    (["b", "a"] : List String).Perm (files_to_hash metaC3 ["a", "b"]) ∧
    "a" ∈ duplicatesList [] (hash_map cfgSmall metaC3 ["b", "a"]) := by
  constructor
  · decide
  · rw [hash_map_metaC3_ba_eval]
    decide

/-- **C3** (amended): for a fingerprint unique to the source index with
`N ≥ 2` paths, exactly `N - 1` of them are selected — all but the
**first in hashing completion order** (`order` is the order in which
`as_completed` drained the futures; the group lists its members as a
sublist of it, and the selected members are exactly its tail). -/
theorem c3_source_only_keeps_completion_first :
    ∀ (cfg : Config) (meta : Meta) (refHM : List (Digest × List String))
      (order : List String) (h : Digest) (ps : List String),
      order.Nodup →
      (h, ps) ∈ hash_map cfg meta order →
      hasKey refHM h = false →
      1 < ps.length →
      ps.Sublist order ∧
      ps.filter (fun x => decide (x ∈ duplicatesList refHM (hash_map cfg meta order))) =
        ps.tail := by
  intro cfg meta refHM order h ps hnd hmem hkey hlen
  have hsub : ps.Sublist order :=
    buildMap_sublist_input (get_file_hash cfg meta) order (h, ps) hmem
  refine ⟨hsub, ?_⟩
  have hpsnd : ps.Nodup := hnd.sublist hsub
  have hcontrib : dupContrib refHM (h, ps) = ps.tail := by
    rw [dupContrib]
    rw [if_neg (by simp [hkey]), if_pos hlen]
  have htail : ∀ x ∈ ps.tail, x ∈ duplicatesList refHM (hash_map cfg meta order) := by
    intro x hx
    rw [mem_duplicatesList]
    exact ⟨(h, ps), hmem, by rw [hcontrib]; exact hx⟩
  obtain ⟨a, t, rfl⟩ : ∃ a t, ps = a :: t := by
    cases ps with
    | nil => simp at hlen
    | cons a t => exact ⟨a, t, rfl⟩
  have hhead : a ∉ duplicatesList refHM (hash_map cfg meta order) := by
    intro hcon
    rw [mem_duplicatesList] at hcon
    obtain ⟨q, hq, hcq⟩ := hcon
    obtain ⟨k1, vs1⟩ := q
    have haq : a ∈ vs1 := dupContrib_subset refHM (k1, vs1) hcq
    have hv1 : get_file_hash cfg meta a = some k1 :=
      buildMap_sound (get_file_hash cfg meta) order (k1, vs1) hq a haq
    have hv2 : get_file_hash cfg meta a = some h :=
      buildMap_sound (get_file_hash cfg meta) order (h, a :: t) hmem a (by simp)
    have hk : k1 = h := Option.some.inj (hv1.symm.trans hv2)
    subst hk
    have hvv : vs1 = a :: t :=
      entry_unique (buildMap_keys_nodup (get_file_hash cfg meta) order) hq hmem
    subst hvv
    rw [hcontrib] at hcq
    simp only [List.tail_cons] at hcq
    exact (List.nodup_cons.mp hpsnd).1 hcq
  have hdeca :
      (decide (a ∈ duplicatesList refHM (hash_map cfg meta order))) = false :=
    decide_eq_false hhead
  rw [List.filter_cons, hdeca]
  simp only [Bool.false_eq_true, if_false, List.tail_cons]
  exact List.filter_eq_self.mpr
    (fun x hx => decide_eq_true (htail x (by simpa using hx)))

/-- Witness for `c3_source_only_keeps_completion_first` at the
completion order `["b", "a"]`. -/
theorem c3_source_only_keeps_completion_first_witness :
    (["b", "a"] : List String).Sublist ["b", "a"] ∧
    (["b", "a"] : List String).filter
        (fun x => decide (x ∈ duplicatesList [] (hash_map cfgSmall metaC3 ["b", "a"]))) =
      ["a"] :=
  c3_source_only_keeps_completion_first cfgSmall metaC3 [] ["b", "a"] [5, 6] ["b", "a"]
    (by decide) (by rw [hash_map_metaC3_ba_eval]; exact List.mem_singleton.mpr rfl) rfl
    (by decide)

/-- **C8**: a file whose size probe fails lands in no size bucket,
is never hashed, is reported, and the maps are the same as if it were
absent; a file whose hash fails lands in no fingerprint group, is never
classified as a duplicate, is reported, and the remaining files'
processing is unchanged. -/
theorem c8_unreadable_files_excluded :
    ∀ (cfg : Config) (meta : Meta) (files order : List String) (f : String)
      (refHM : List (Digest × List String)),
      (get_file_size meta f = none →
        (∀ p ∈ size_map meta files, f ∉ p.2) ∧
        f ∉ files_to_hash meta files ∧
        (f ∈ files → f ∈ size_errors meta files) ∧
        size_map meta files = size_map meta (files.filter (fun g => g ≠ f))) ∧
      (get_file_hash cfg meta f = none →
        (∀ p ∈ hash_map cfg meta order, f ∉ p.2) ∧
        f ∉ duplicatesList refHM (hash_map cfg meta order) ∧
        (f ∈ order → f ∈ hash_errors cfg meta order) ∧
        hash_map cfg meta order = hash_map cfg meta (order.filter (fun g => g ≠ f))) := by
  intro cfg meta files order f refHM
  constructor
  · intro hsz
    have hnogrp : ∀ p ∈ size_map meta files, f ∉ p.2 := by
      intro p hp hcon
      have hsound := buildMap_sound (get_file_size meta) files p hp f hcon
      rw [hsz] at hsound
      exact absurd hsound (by simp)
    refine ⟨hnogrp, ?_, ?_, ?_⟩
    · intro hcon
      rw [files_to_hash] at hcon
      simp only [List.mem_flatten, List.mem_map] at hcon
      obtain ⟨l, ⟨p, hp, rfl⟩, hxl⟩ := hcon
      exact hnogrp p (List.mem_filter.mp hp).1 hxl
    · intro hf
      rw [size_errors, List.mem_filter]
      exact ⟨hf, by simp [hsz]⟩
    · exact buildMap_skip_none (get_file_size meta) f hsz files
  · intro hh
    have hnogrp : ∀ p ∈ hash_map cfg meta order, f ∉ p.2 := by
      intro p hp hcon
      have hsound := buildMap_sound (get_file_hash cfg meta) order p hp f hcon
      rw [hh] at hsound
      exact absurd hsound (by simp)
    refine ⟨hnogrp, ?_, ?_, ?_⟩
    · intro hcon
      rw [mem_duplicatesList] at hcon
      obtain ⟨p, hp, hc⟩ := hcon
      exact hnogrp p hp (dupContrib_subset refHM p hc)
    · intro hf
      rw [hash_errors, List.mem_filter]
      exact ⟨hf, by simp [hh]⟩
    · exact buildMap_skip_none (get_file_hash cfg meta) f hh order

/-- Witness for `c8_unreadable_files_excluded`: `src/broken.mp3` (both
probes fail) is excluded everywhere and reported, while the readable
duplicate pair is still processed. -/
theorem c8_unreadable_files_excluded_witness :
    "src/broken.mp3" ∉ files_to_hash metaC8 ["src/a.mp3", "src/broken.mp3", "src/b.mp3"] ∧
    "src/broken.mp3" ∈ size_errors metaC8 ["src/a.mp3", "src/broken.mp3", "src/b.mp3"] ∧
    "src/broken.mp3" ∉ duplicatesList []
        (hash_map cfgSmall metaC8 ["src/a.mp3", "src/broken.mp3", "src/b.mp3"]) ∧
    "src/broken.mp3" ∈ hash_errors cfgSmall metaC8
        ["src/a.mp3", "src/broken.mp3", "src/b.mp3"] := by
  have h := c8_unreadable_files_excluded cfgSmall metaC8
    ["src/a.mp3", "src/broken.mp3", "src/b.mp3"]
    ["src/a.mp3", "src/broken.mp3", "src/b.mp3"] "src/broken.mp3" []
  have hs := h.1 (by decide)
  have hh := h.2 rfl
  exact ⟨hs.2.1, hs.2.2.1 (by decide), hh.2.1, hh.2.2.1 (by decide)⟩

/-- **C5** (counterexample): two refutations at concrete inputs.  A
dry run over an absent output directory still **creates** it —
`main`'s unconditional `mkdir` runs before the dry-run check — so
filesystem mutation does occur; and with two source files sharing the
base name `x.mp3` the dry run reports the intended targets
`[x.mp3, x.mp3]` while the non-dry-run pass on identical inputs moves
to `[x.mp3, x_1.mp3]`, so the reported moves do not exactly mirror the
real pass either. -/
theorem c5_dry_run_mirror_counterexample :
    fs0.destDirExists = false ∧
    (main_move_phase { cfgSmall with dryRun := true } okOracle okFallback [srcX1, srcX2]
        10 fs0).1.destDirExists = true ∧
    (main_move_phase { cfgSmall with dryRun := true } okOracle okFallback [srcX1, srcX2]
        10 fs0).2 =
      [Outcome.dryRunMove "x.mp3", Outcome.dryRunMove "x.mp3"] ∧
    (main_move_phase cfgSmall okOracle okFallback [srcX1, srcX2] 10 fs0).2 =
      [Outcome.moved "x.mp3" MoveKind.renamed, Outcome.moved "x_1.mp3" MoveKind.renamed] ∧
    (["x.mp3", "x.mp3"] : List String) ≠ ["x.mp3", "x_1.mp3"] := by
  refine ⟨rfl, by decide, by decide, by decide, by decide⟩

/-- **C5** (amended): a dry run is **not** mutation-free: `main`'s
unconditional `mkdir` still creates the output directory when absent.
It is the only mutation — the run's final filesystem state is exactly
the prepared one, so the moving phase itself renames, copies and
deletes nothing — and each file's reported intended move equals the
move a non-dry-run **single-file** pass would perform against that
same prepared state; a full non-dry-run batch may diverge on later
files because its earlier moves populate the destination directory. -/
theorem c5_dry_run_amended :
    ∀ (cfg : Config) (oracle : Src → Nat → RenameRes) (fallback : Src → Except String Unit)
      (files : List Src) (fuel : Nat) (fs : FS),
      cfg.dryRun = true →
      (main_move_phase cfg oracle fallback files fuel fs).1 = prepare_output fs ∧
      (fs.destDirExists = false →
        (main_move_phase cfg oracle fallback files fuel fs).1 ≠ fs) ∧
      (main_move_phase cfg oracle fallback files fuel fs).2 =
        files.map (fun s =>
          (move_file cfg (oracle s) (fallback s) s fuel (prepare_output fs)).2.1) ∧
      (∀ (s : Src) (d : String),
        (move_file cfg (oracle s) (fallback s) s fuel (prepare_output fs)).2.1 =
          Outcome.dryRunMove d →
        (move_file { cfg with dryRun := false } (okOracle s) (okFallback s) s fuel
            (prepare_output fs)).2.1 = Outcome.moved d MoveKind.renamed) := by
  intro cfg oracle fallback files fuel fs hdry
  have hmain : main_move_phase cfg oracle fallback files fuel fs =
      (prepare_output fs,
        files.map (fun s =>
          (move_file cfg (oracle s) (fallback s) s fuel (prepare_output fs)).2.1)) := by
    rw [main_move_phase,
      move_files_dry cfg oracle fallback files fuel (prepare_output fs) hdry]
  refine ⟨by rw [hmain], ?_, by rw [hmain], ?_⟩
  · intro hdir hcon
    rw [hmain] at hcon
    have h2 := congrArg FS.destDirExists hcon
    simp [prepare_output, hdir] at h2
  · intro s d hd
    cases hf : findFreeName (prepare_output fs).destNames s 0 fuel with
    | none =>
      have hbody := moveFileBody_noName cfg (oracle s) (fallback s) s fuel
        (prepare_output fs) hf
      have hmf : (move_file cfg (oracle s) (fallback s) s fuel (prepare_output fs)).2.1 =
          Outcome.failed "collision loop did not terminate" := by
        unfold move_file
        rw [hbody]
      rw [hmf] at hd
      exact absurd hd (by simp)
    | some k =>
      have hbody := moveFileBody_dry cfg (oracle s) (fallback s) s fuel
        (prepare_output fs) k hf hdry
      have hmf : (move_file cfg (oracle s) (fallback s) s fuel (prepare_output fs)).2.1 =
          Outcome.dryRunMove (candidateName s k) := by
        unfold move_file
        rw [hbody]
      rw [hmf] at hd
      have hdk : d = candidateName s k := (Outcome.dryRunMove.inj hd).symm
      subst hdk
      have ha : attemptLoop { cfg with dryRun := false } (okOracle s) (okFallback s) 0
          ({ cfg with dryRun := false }.retries + 1) = (Except.ok MoveKind.renamed, []) :=
        attemptLoop_first_ok _ _ _ 0 _ rfl
      have hb2 := moveFileBody_real_ok { cfg with dryRun := false } (okOracle s)
        (okFallback s) s fuel (prepare_output fs) k MoveKind.renamed [] hf rfl ha
      have hm2 := move_file_of_body_ok _ _ _ _ _ _ _ _ _ hb2
      rw [hm2]

/-- Witness for `c5_dry_run_amended`: the dry batch over the `x.mp3`
pair ends in exactly the prepared state — which differs from the
initial one (the directory was created) — and the first file's reported
target is the one a real single-file move would use. -/
theorem c5_dry_run_amended_witness :
    (main_move_phase { cfgSmall with dryRun := true } okOracle okFallback [srcX1, srcX2]
        10 fs0).1 = prepare_output fs0 ∧
    (main_move_phase { cfgSmall with dryRun := true } okOracle okFallback [srcX1, srcX2]
        10 fs0).1 ≠ fs0 ∧
    (move_file { { cfgSmall with dryRun := true } with dryRun := false } (okOracle srcX1)
        (okFallback srcX1) srcX1 10 (prepare_output fs0)).2.1 =
      Outcome.moved "x.mp3" MoveKind.renamed := by
  have h := c5_dry_run_amended { cfgSmall with dryRun := true } okOracle okFallback
    [srcX1, srcX2] 10 fs0 rfl
  exact ⟨h.1, h.2.1 rfl, h.2.2.2 srcX1 "x.mp3" (by decide)⟩

/-- **C9**: the collision loop returns the base name when it is free
and otherwise the lowest free suffixed candidate, so the chosen
destination never exists beforehand; a successful move inserts exactly
that fresh name into the destination (hence a second sequential run can
only choose fresh, distinct suffixed names and overwrites nothing), and
a failed move leaves the destination's contents unchanged. -/
theorem c9_collision_avoidance_never_overwrites :
    (∀ (names : List String) (s : Src) (fuel j : Nat),
      findFreeName names s 0 fuel = some j →
      candidateName s j ∉ names ∧ (candidateName s 0 ∉ names → j = 0) ∧
      ∀ i, i < j → candidateName s i ∈ names) ∧
    (∀ (cfg : Config) (oracle : Nat → RenameRes) (fallback : Except String Unit)
       (s : Src) (fuel : Nat) (fs fs' : FS) (d : String) (kind : MoveKind) (ds : List Nat),
      cfg.dryRun = false →
      move_file cfg oracle fallback s fuel fs = (fs', Outcome.moved d kind, ds) →
      d ∉ fs.destNames ∧ fs'.destNames = d :: fs.destNames) ∧
    (∀ (cfg : Config) (oracle : Nat → RenameRes) (fallback : Except String Unit)
       (s : Src) (fuel : Nat) (fs fs' : FS) (e : String) (ds : List Nat),
      cfg.dryRun = false →
      move_file cfg oracle fallback s fuel fs = (fs', Outcome.failed e, ds) →
      fs'.destNames = fs.destNames) := by
  refine ⟨?_, ?_, ?_⟩
  · intro names s fuel j hf
    obtain ⟨_, hfree, hbelow⟩ := findFreeName_spec names s fuel 0 j hf
    refine ⟨hfree, ?_, fun i hi => hbelow i (Nat.zero_le i) hi⟩
    intro h0
    by_contra hj0
    exact h0 (hbelow 0 (Nat.zero_le 0) (Nat.pos_of_ne_zero hj0))
  · intro cfg oracle fallback s fuel fs fs' d kind ds hdry hmv
    cases hf : findFreeName fs.destNames s 0 fuel with
    | none =>
      have hbody := moveFileBody_noName cfg oracle fallback s fuel fs hf
      have hmf : move_file cfg oracle fallback s fuel fs =
          (fs, Outcome.failed "collision loop did not terminate", []) := by
        unfold move_file
        rw [hbody]
      rw [hmf] at hmv
      simp at hmv
    | some k =>
      rcases ha : attemptLoop cfg oracle fallback 0 (cfg.retries + 1) with ⟨r, ds'⟩
      cases r with
      | error e =>
        have hbody := moveFileBody_real_err cfg oracle fallback s fuel fs k e ds' hf hdry ha
        have hmf : move_file cfg oracle fallback s fuel fs =
            (⟨fs.destNames, fs.sources, true⟩, Outcome.failed e, ds') := by
          unfold move_file
          rw [hbody]
        rw [hmf] at hmv
        simp at hmv
      | ok kind' =>
        have hbody := moveFileBody_real_ok cfg oracle fallback s fuel fs k kind' ds' hf hdry ha
        have hmf := move_file_of_body_ok _ _ _ _ _ _ _ _ _ hbody
        rw [hmf] at hmv
        simp only [Prod.mk.injEq, Outcome.moved.injEq] at hmv
        obtain ⟨hfs, ⟨hd, _hkind⟩, _hds⟩ := hmv
        subst hd
        refine ⟨(findFreeName_spec fs.destNames s fuel 0 k hf).2.1, ?_⟩
        rw [← hfs]
  · intro cfg oracle fallback s fuel fs fs' e ds hdry hmv
    cases hf : findFreeName fs.destNames s 0 fuel with
    | none =>
      have hbody := moveFileBody_noName cfg oracle fallback s fuel fs hf
      have hmf : move_file cfg oracle fallback s fuel fs =
          (fs, Outcome.failed "collision loop did not terminate", []) := by
        unfold move_file
        rw [hbody]
      rw [hmf] at hmv
      simp only [Prod.mk.injEq] at hmv
      rw [← hmv.1]
    | some k =>
      rcases ha : attemptLoop cfg oracle fallback 0 (cfg.retries + 1) with ⟨r, ds'⟩
      cases r with
      | error e' =>
        have hbody := moveFileBody_real_err cfg oracle fallback s fuel fs k e' ds' hf hdry ha
        have hmf : move_file cfg oracle fallback s fuel fs =
            (⟨fs.destNames, fs.sources, true⟩, Outcome.failed e', ds') := by
          unfold move_file
          rw [hbody]
        rw [hmf] at hmv
        simp only [Prod.mk.injEq] at hmv
        rw [← hmv.1]
      | ok kind' =>
        have hbody := moveFileBody_real_ok cfg oracle fallback s fuel fs k kind' ds' hf hdry ha
        have hmf := move_file_of_body_ok _ _ _ _ _ _ _ _ _ hbody
        rw [hmf] at hmv
        simp at hmv

/-- Witness for `c9_collision_avoidance_never_overwrites`: with
`x.mp3` and `x_1.mp3` taken the loop picks `x_2.mp3`, which is fresh;
and a real move into a destination already holding `x.mp3` picks the
fresh `x_1.mp3` and inserts it. -/
theorem c9_collision_avoidance_never_overwrites_witness :
    candidateName srcX1 2 ∉ ["x.mp3", "x_1.mp3"] ∧
    ("x_1.mp3" ∉ (["x.mp3"] : List String) ∧
      (FS.mk ["x_1.mp3", "x.mp3"] [] true).destNames = "x_1.mp3" :: ["x.mp3"]) := by
  have h1 := (c9_collision_avoidance_never_overwrites.1 ["x.mp3", "x_1.mp3"] srcX1 10 2
    (by decide)).1
  have h2 := c9_collision_avoidance_never_overwrites.2.1 cfgSmall (fun _ => RenameRes.ok)
    (Except.ok ()) srcX1 10 ⟨["x.mp3"], ["a/x.mp3"], false⟩ ⟨["x_1.mp3", "x.mp3"], [], true⟩
    "x_1.mp3" MoveKind.renamed [] rfl (by decide)
  exact ⟨h1, h2⟩

/-- Witness for `c6_retry_backoff_amended` at the script's own
configuration. -/
theorem c6_retry_backoff_amended_witness :
    attemptLoop defaultConfig (fun _ => RenameRes.exn "io error") (Except.ok ()) 0
        (defaultConfig.retries + 1) =
      (Except.error "io error",
        (List.range defaultConfig.retries).map
          (fun i => defaultConfig.retryDelay * 2 ^ (i + 1))) ∧
    attemptLoop defaultConfig (fun _ => RenameRes.osErr) (Except.error "copy failed") 0
        (defaultConfig.retries + 1) = (Except.error "copy failed", []) ∧
    attemptLoop defaultConfig (fun _ => RenameRes.osErr) (Except.ok ()) 0
        (defaultConfig.retries + 1) = (Except.ok MoveKind.fallbackMoved, []) :=
  ⟨c6_retry_backoff_amended.1 defaultConfig _ (Except.ok ()) "io error" (fun _ => rfl),
   c6_retry_backoff_amended.2.1 defaultConfig _ _ "copy failed" rfl rfl,
   c6_retry_backoff_amended.2.2 defaultConfig _ _ rfl rfl⟩

end AudioDedup
